import Mathlib

/-!
Verification development for the `bladwijzers` CLI bookmark organizer
(`src/index.js`).  The program stores bookmark items in a single
configuration file under the key `items`; commands read the whole list,
transform it and persist it wholesale.  We embed the store state as a
`List Item`, the URL hashing pipeline (normalize-url followed by an MD5
digest), the store operations, the `add` command's duplicate check, the
metadata fetcher's timeout race, the fuzzy collection search and the
`list` command's grouping object.
-/

namespace Bladwijzers

/-- A stored bookmark record `{ hash, url, collection, title }`
(src/index.js `createItem` plus the user-confirmed title). -/
structure Item where
  hash : String
  url : String
  collection : String
  title : String
deriving DecidableEq, Repr

/-! ## URL parsing helpers

`normalize-url`, `valid-url` and `new URL(...)` are external libraries; we
model them over one small parser that splits `protocol://host[/path]`. -/

/-- Split a character list at the first `:`; `none` when there is no `:`. -/
def breakColon : List Char → Option (List Char × List Char)
  | [] => none
  | c :: cs =>
    if c = ':' then some ([], cs)
    else
      match breakColon cs with
      | none => none
      | some (a, b) => some (c :: a, b)

/-- Split a character list at the first `/`: the part before it and the
part from it (inclusive); the second part is `[]` when there is no `/`. -/
def breakSlash : List Char → List Char × List Char
  | [] => ([], [])
  | c :: cs =>
    if c = '/' then ([], c :: cs)
    else (c :: (breakSlash cs).1, (breakSlash cs).2)

/-- The components of a parsed `protocol://host[path]` URL. -/
structure UrlParts where
  protocol : List Char
  host : List Char
  path : List Char
deriving DecidableEq, Repr

/-- Parse `protocol://host[path]`; `none` when the shape is absent. -/
def parseChars (l : List Char) : Option UrlParts :=
  match breakColon l with
  | none => none
  | some (proto, rest) =>
    match rest with
    | r1 :: r2 :: rest2 =>
      if r1 = '/' ∧ r2 = '/' then
        some ⟨proto, (breakSlash rest2).1, (breakSlash rest2).2⟩
      else none
    | _ => none

/-- Models the `valid-url` library's `isUri` (simplified RFC 3986 check):
an alphabetic scheme followed by `://` and a non-empty host. -/
def isUri (u : String) : Bool :=
  match parseChars u.data with
  | none => false
  | some p => !p.protocol.isEmpty && p.protocol.all Char.isAlpha && !p.host.isEmpty

/-- Remove a leading `www.` from a host (normalize-url default `stripWWW`). -/
def stripWww : List Char → List Char
  | 'w' :: 'w' :: 'w' :: '.' :: rest => rest
  | host => host

/-- Remove an explicit default port, `:80` for http and `:443` for https
(normalize-url default behavior via `new URL`). -/
def stripDefaultPort (proto host : List Char) : List Char :=
  if proto = "http".data && ":80".data.isSuffixOf host then
    host.take (host.length - 3)
  else if proto = "https".data && ":443".data.isSuffixOf host then
    host.take (host.length - 4)
  else host

/-- Remove one trailing `/` (normalize-url default `removeTrailingSlash`). -/
def removeTrailingSlash (path : List Char) : List Char :=
  if path.getLast? = some '/' then path.dropLast else path

/-- Models the `normalize-url` library with its default options: lowercase
the scheme and host, strip a `www.` host label and an explicit default
port, and drop a trailing slash.  The library raises on input it cannot
parse; we return `none` there.  (Query-parameter sorting and utm-parameter
removal are not modelled; no claim depends on them.) -/
def normalizeUrl (u : String) : Option String :=
  match parseChars u.data with
  | none => none
  | some p =>
    let proto := p.protocol.map Char.toLower
    let host := stripDefaultPort proto (stripWww (p.host.map Char.toLower))
    let path := removeTrailingSlash p.path
    some (String.mk (proto ++ ':' :: '/' :: '/' :: host ++ path))

/-! ## MD5 (Node `crypto` `createHash("md5") ... digest("hex")`)

A direct implementation over `Nat` with explicit reduction mod `2^32`. -/

/-- Reduce mod `2^32`. -/
def w32 (n : Nat) : Nat := n % 4294967296

/-- Rotate a 32-bit word left by `n` bits. -/
def rotl32 (x n : Nat) : Nat := w32 (x * 2 ^ n + x / 2 ^ (32 - n))

/-- 32-bit complement. -/
def not32 (x : Nat) : Nat := x ^^^ 4294967295

/-- The 64 MD5 sine-derived constants. -/
def md5K : List Nat :=
  [0xd76aa478, 0xe8c7b756, 0x242070db, 0xc1bdceee,
   0xf57c0faf, 0x4787c62a, 0xa8304613, 0xfd469501,
   0x698098d8, 0x8b44f7af, 0xffff5bb1, 0x895cd7be,
   0x6b901122, 0xfd987193, 0xa679438e, 0x49b40821,
   0xf61e2562, 0xc040b340, 0x265e5a51, 0xe9b6c7aa,
   0xd62f105d, 0x02441453, 0xd8a1e681, 0xe7d3fbc8,
   0x21e1cde6, 0xc33707d6, 0xf4d50d87, 0x455a14ed,
   0xa9e3e905, 0xfcefa3f8, 0x676f02d9, 0x8d2a4c8a,
   0xfffa3942, 0x8771f681, 0x6d9d6122, 0xfde5380c,
   0xa4beea44, 0x4bdecfa9, 0xf6bb4b60, 0xbebfbc70,
   0x289b7ec6, 0xeaa127fa, 0xd4ef3085, 0x04881d05,
   0xd9d4d039, 0xe6db99e5, 0x1fa27cf8, 0xc4ac5665,
   0xf4292244, 0x432aff97, 0xab9423a7, 0xfc93a039,
   0x655b59c3, 0x8f0ccc92, 0xffeff47d, 0x85845dd1,
   0x6fa87e4f, 0xfe2ce6e0, 0xa3014314, 0x4e0811a1,
   0xf7537e82, 0xbd3af235, 0x2ad7d2bb, 0xeb86d391]

/-- The 64 MD5 per-round left-rotation amounts. -/
def md5S : List Nat :=
  [7, 12, 17, 22, 7, 12, 17, 22, 7, 12, 17, 22, 7, 12, 17, 22,
   5, 9, 14, 20, 5, 9, 14, 20, 5, 9, 14, 20, 5, 9, 14, 20,
   4, 11, 16, 23, 4, 11, 16, 23, 4, 11, 16, 23, 4, 11, 16, 23,
   6, 10, 15, 21, 6, 10, 15, 21, 6, 10, 15, 21, 6, 10, 15, 21]

/-- The MD5 round mixing function and message-word index for round `i`. -/
def md5FG (i b c d : Nat) : Nat × Nat :=
  if i < 16 then ((b &&& c) ||| (not32 b &&& d), i)
  else if i < 32 then ((d &&& b) ||| (not32 d &&& c), (5 * i + 1) % 16)
  else if i < 48 then (b ^^^ c ^^^ d, (3 * i + 5) % 16)
  else ((c ^^^ (b ||| not32 d)), (7 * i) % 16)

/-- One MD5 round on state `(a, b, c, d)` with message words `m`. -/
def md5Round (m : List Nat) (st : Nat × Nat × Nat × Nat) (i : Nat) :
    Nat × Nat × Nat × Nat :=
  let (a, b, c, d) := st
  let fg := md5FG i b c d
  let f := w32 (fg.1 + a + md5K.getD i 0 + m.getD fg.2 0)
  (d, w32 (b + rotl32 f (md5S.getD i 0)), b, c)

/-- Process one 64-byte chunk: fold the 64 rounds and add the result into
the running state. -/
def md5Chunk (st : Nat × Nat × Nat × Nat) (chunk : List Nat) :
    Nat × Nat × Nat × Nat :=
  let m := (List.range 16).map fun j =>
    chunk.getD (4 * j) 0 + 256 * chunk.getD (4 * j + 1) 0 +
      65536 * chunk.getD (4 * j + 2) 0 + 16777216 * chunk.getD (4 * j + 3) 0
  let r := (List.range 64).foldl (md5Round m) st
  (w32 (st.1 + r.1), w32 (st.2.1 + r.2.1), w32 (st.2.2.1 + r.2.2.1),
    w32 (st.2.2.2 + r.2.2.2))

/-- MD5 padding: `0x80`, zeros to 56 mod 64, then the bit length as a
little-endian 64-bit quantity. -/
def md5Pad (msg : List Nat) : List Nat :=
  let z := (119 - msg.length % 64) % 64
  let bitLen := (8 * msg.length) % 18446744073709551616
  msg ++ 0x80 :: List.replicate z 0 ++
    (List.range 8).map fun j => bitLen / 256 ^ j % 256

/-- One lowercase hexadecimal digit. -/
def hexDigit (n : Nat) : Char := "0123456789abcdef".data.getD n '0'

/-- A 32-bit word as 8 hex characters, little-endian byte order. -/
def wordHexLE (w : Nat) : List Char :=
  (List.range 4).flatMap fun j =>
    [hexDigit (w / 256 ^ j % 256 / 16), hexDigit (w / 256 ^ j % 256 % 16)]

/-- MD5 digest of a byte list, as a lowercase hex string. -/
def md5Bytes (msg : List Nat) : String :=
  let padded := md5Pad msg
  let chunks := (List.range (padded.length / 64)).map fun i =>
    (padded.drop (64 * i)).take 64
  let st := chunks.foldl md5Chunk (0x67452301, 0xefcdab89, 0x98badcfe, 0x10325476)
  String.mk (wordHexLE st.1 ++ wordHexLE st.2.1 ++ wordHexLE st.2.2.1 ++
    wordHexLE st.2.2.2)

/-- MD5 of a string's UTF-8 bytes, hex encoded (Node
`crypto.createHash("md5").update(s).digest("hex")`). -/
def md5hex (s : String) : String :=
  md5Bytes (s.toUTF8.toList.map UInt8.toNat)

/-- `hashUrl` (src/index.js:37-41): MD5-hex of the normalized URL.
`none` models the exception normalize-url raises on unparseable input. -/
def hashUrl (url : String) : Option String :=
  (normalizeUrl url).map md5hex

/-! ## The store (src/index.js:44-79)

The persisted state is the value of the config key `items`, a single
ordered list; every operation reads the whole list and writes it back
wholesale, so each store operation is a function on `List Item`. -/

/-- Helper for `uniqFirst`: keep the elements not seen yet. -/
def uniqFirstAux (seen : List String) : List String → List String
  | [] => []
  | x :: xs =>
    if seen.contains x then uniqFirstAux seen xs
    else x :: uniqFirstAux (x :: seen) xs

/-- lodash `_.uniq`: distinct elements keeping first occurrences in order. -/
def uniqFirst (l : List String) : List String := uniqFirstAux [] l

/-- `store.getItem(url)`: hash the url, then linear-scan for a hash match.
The `none` of the outer match models the exception `hashUrl` raises on an
unparseable url; the command layer guards every call with `isUri`. -/
def getItem (s : List Item) (url : String) : Option Item :=
  match hashUrl url with
  | none => none
  | some h => s.find? (fun x => x.hash == h)

/-- `store.addItem(item)`: push onto the full list, then persist it. -/
def addItem (s : List Item) (item : Item) : List Item :=
  s ++ [item]

/-- `store.removeItem(item)` (src/index.js:54-57): keep the items whose
url differs from the given item's url, then persist. -/
def removeItem (s : List Item) (item : Item) : List Item :=
  s.filter (fun x => x.url != item.url)

/-- `store.getCollections()`: the distinct collection labels. -/
def getCollections (s : List Item) : List String :=
  uniqFirst (s.map (fun x => x.collection))

/-- `store.getCollectionItems(collection)`. -/
def getCollectionItems (s : List Item) (collection : String) : List Item :=
  s.filter (fun x => x.collection == collection)

/-! ## Fuzzy collection search (the `fuzzy` library and
`store.fuzzySearchCollections`, src/index.js:73-78) -/

/-- The per-character loop of `fuzzy.match`: walk the (lowercased) string,
consuming pattern characters greedily; a consecutive run doubles the
running score (`currScore += 1 + currScore`) and every position adds the
running score to the total.  Returns the unconsumed pattern remainder and
the total score. -/
def fuzzyLoop : List Char → List Char → Nat → Nat → List Char × Nat
  | [], pat, _, total => (pat, total)
  | _ :: cs, [], _, total => fuzzyLoop cs [] 0 total
  | c :: cs, p :: ps, curr, total =>
    if c = p then fuzzyLoop cs ps (2 * curr + 1) (total + (2 * curr + 1))
    else fuzzyLoop cs (p :: ps) 0 total

/-- Models `fuzzy.match(pattern, str)` with the library defaults
(case-insensitive, no pre/post markers): `some score` when the whole
pattern is consumed, `⊤` (Infinity) when the strings are exactly equal. -/
def fuzzyMatch (pattern str : String) : Option ℕ∞ :=
  let r := fuzzyLoop (str.data.map Char.toLower) (pattern.data.map Char.toLower) 0 0
  if r.1 = [] then some (if str = pattern then ⊤ else (r.2 : ℕ∞)) else none

/-- A `fuzzy.filter` result: the rendered string (with no markers, the
original string), its score and its index in the input array. -/
structure FuzzyResult where
  string : String
  score : ℕ∞
  index : Nat
deriving DecidableEq

/-- The comparator `fuzzy.filter` sorts with
(`b.score - a.score || a.index - b.index`): descending score, ties broken
by ascending input index. -/
def fuzzyRank (a b : FuzzyResult) : Prop :=
  b.score < a.score ∨ (b.score = a.score ∧ a.index ≤ b.index)

instance : DecidableRel fuzzyRank := fun a b => by
  unfold fuzzyRank; infer_instance

/-- Models `fuzzy.filter(pattern, arr)`: the matching elements with score
and index, sorted by the library's comparator. -/
def fuzzyFilter (pattern : String) (arr : List String) : List FuzzyResult :=
  List.insertionSort fuzzyRank
    (arr.enum.filterMap fun p =>
      (fuzzyMatch pattern p.2).map fun sc => ⟨p.2, sc, p.1⟩)

/-- `store.fuzzySearchCollections(input)` (src/index.js:73-78): an empty
input returns every collection unfiltered; otherwise the fuzzy-filtered
collections, mapped to their (rendered) strings. -/
def fuzzySearchCollections (s : List Item) (input : String) : List String :=
  if input = "" then getCollections s
  else (fuzzyFilter input (getCollections s)).map FuzzyResult.string

/-! ## The add command (src/index.js:108-135) -/

/-- What `addCommand` does besides returning: report an error line via
`output.err` (store untouched), add an item, or propagate an exception
(unreachable when the url passed validation). -/
inductive AddOutcome
  | reported (msg : String)
  | added (item : Item)
  | exn
deriving DecidableEq, Repr

/-- src/index.js `addCommand` with the url argument present and the two
interactive answers — the collection chosen in `selectCollection` and the
final title confirmed in `inputTitle` — passed as oracle inputs.  The
constructed item carries the hash of the url, the url, the chosen
collection and the confirmed title (the scraped title is only the prompt
default and is overwritten by the answer). -/
def addCommand (s : List Item) (url collection title : String) :
    List Item × AddOutcome :=
  if !isUri url then (s, .reported "The provided url is not valid")
  else
    match getItem s url with
    | some existing =>
      (s, .reported ("The provided url has already been added to " ++
        existing.collection))
    | none =>
      match hashUrl url with
      | none => (s, .exn)
      | some h =>
        let item : Item := ⟨h, url, collection, title⟩
        (addItem s item, .added item)

/-! ## The metadata fetcher (src/index.js:86-96) -/

/-- An HTTP response as `got` resolves it. -/
structure HttpResponse where
  statusCode : Nat
  body : String
deriving DecidableEq, Repr

/-- The record `fetchItemMeta` resolves to: the url and, when scraping
produced one, a title. -/
structure ItemMeta where
  url : String
  title : Option String
deriving DecidableEq, Repr

/-- Which branch of `Promise.race([got(url, ...), timeout(5000)])`
settles first: the HTTP response, or the timeout (which resolves
`undefined`). -/
inductive RaceOutcome
  | response (resp : HttpResponse)
  | timedOut
deriving DecidableEq, Repr

/-- Models `got(url, { throwHttpErrors })`: with the flag set a non-2xx
status rejects with an HTTPError; with it clear the response is resolved
whatever the status. -/
def got (resp : HttpResponse) (throwHttpErrors : Bool) :
    Except String HttpResponse :=
  if throwHttpErrors ∧ (resp.statusCode < 200 ∨ 300 ≤ resp.statusCode) then
    .error "HTTPError"
  else .ok resp

/-- src/index.js `fetchItemMeta`: race the GET against `timeout(5000)`.
A resolved timeout yields `undefined`, hence the bare `{ url }` record;
otherwise the response body is handed to the scraper (metascraper with
the title rule), passed here as a function argument. -/
def fetchItemMeta (url : String) (race : RaceOutcome)
    (scraper : String → String → Option String) : Except String ItemMeta :=
  match race with
  | .timedOut => .ok { url := url, title := none }
  | .response r =>
    match got r false with
    | .error e => .error e
    | .ok resp => .ok { url := url, title := scraper resp.body url }

/-! ## The list command (src/index.js:202-216)

`listCommand` folds the stored items into a plain JS object
`collections[collection][renderedTitle] = hyperlink` and hands it to
`treeify.asTree`.  A JS object is an insertion-ordered association list
with unique keys, which is how we embed it. -/

/-- ANSI green (the `colors` library's `.green`). -/
def green (s : String) : String := "\x1B[32m" ++ s ++ "\x1B[39m"

/-- ANSI blue (the `colors` library's `.blue`). -/
def blue (s : String) : String := "\x1B[34m" ++ s ++ "\x1B[39m"

/-- lodash `_.truncate(s, { length: n })`: unchanged when within `n`
characters, otherwise the first `n - 3` characters followed by `...`. -/
def truncate (s : String) (n : Nat) : String :=
  if s.length ≤ n then s else String.mk (s.data.take (n - 3)) ++ "..."

/-- `new URL(url).hostname`: the lowercased host with any port removed;
`""` models the exception on an unparseable url (stored items always hold
urls that passed validation). -/
def hostname (url : String) : String :=
  match parseChars url.data with
  | none => ""
  | some p => String.mk (((breakColon p.host).elim p.host Prod.fst).map Char.toLower)

/-- The `terminal-link` library: an OSC 8 hyperlink showing `text` and
pointing at `url` (the supported-terminal form). -/
def terminalLink (text url : String) : String :=
  "\x1B]8;;" ++ url ++ "\x07" ++ text ++ "\x1B]8;;\x07"

/-- The object key listCommand renders an item under: its title truncated
to 40 characters, colored green. -/
def renderTitle (it : Item) : String := green (truncate it.title 40)

/-- The value stored under that key: a hyperlink labelled with the blue
hostname (plus `/…`) and pointing at the item's url. -/
def renderLink (it : Item) : String :=
  terminalLink (blue (hostname it.url ++ "/…")) it.url

/-- Lookup in a JS-object-as-association-list (keys are unique; the first
binding wins). -/
def alookup {β : Type} : List (String × β) → String → Option β
  | [], _ => none
  | e :: rest, key => if e.1 = key then some e.2 else alookup rest key

/-- JS property assignment `obj[k] = v`: update in place when the key
exists (keeping its position), append otherwise. -/
def setKey {β : Type} (k : String) (v : β) :
    List (String × β) → List (String × β)
  | [] => [(k, v)]
  | e :: rest => if e.1 = k then (k, v) :: rest else e :: setKey k v rest

/-- `Object.assign({ [t]: link }, existing)`: the key `t` is placed
first, but when `existing` already binds `t` its value wins; the other
existing bindings follow in order. -/
def assignEntry (t link : String) (existing : List (String × String)) :
    List (String × String) :=
  (t, (alookup existing t).getD link) :: existing.filter (fun e => e.1 != t)

/-- One iteration of listCommand's `for (const item of store.getItems())`
loop: `collections[item.collection] = Object.assign({ [title]: link },
collections[item.collection])`. -/
def entryStep (acc : List (String × List (String × String))) (it : Item) :
    List (String × List (String × String)) :=
  setKey it.collection
    (assignEntry (renderTitle it) (renderLink it)
      ((alookup acc it.collection).getD []))
    acc

/-- The `collections` object listCommand hands to `treeify.asTree`:
collection label ↦ (rendered title ↦ hyperlink). -/
def listTree (items : List Item) : List (String × List (String × String)) :=
  items.foldl entryStep []

/-- Lookup of the hyperlink shown under collection `c` and rendered title
`t` in the tree listCommand prints. -/
def treeLookup (items : List Item) (c t : String) : Option String :=
  (alookup (listTree items) c).bind fun es => alookup es t

/-! ## Theorems -/

/-- C1: `removeItem` deletes exactly the items whose url equals the
selected item's url: the persisted list is a sublist of the old one (the
survivors are the original records in their original order), every item
carrying the selected url is gone, and every item carrying any other url
keeps its exact multiplicity — in particular items sharing the selected
item's collection but not its url are untouched. -/
theorem removeItem_deletes_exactly_matching_url (s : List Item) (sel : Item) :
    (removeItem s sel).Sublist s ∧
      ∀ x : Item, (removeItem s sel).count x =
        if x.url = sel.url then 0 else s.count x := by
  refine ⟨List.filter_sublist s, fun x => ?_⟩
  by_cases h : x.url = sel.url
  · rw [if_pos h, List.count_eq_zero]
    intro hmem
    have := (List.mem_filter.mp hmem).2
    simp [bne_iff_ne, h] at this
  · rw [if_neg h]
    exact List.count_filter (by simpa [bne_iff_ne] using h)

/-- C9: removing an item whose url occurs nowhere in the stored list
leaves the persisted list unchanged, same items in the same order;
`removeItem` is a total function on the state, so no error arises. -/
theorem removeItem_noop_when_url_absent (s : List Item) (sel : Item)
    (h : ∀ x ∈ s, x.url ≠ sel.url) : removeItem s sel = s :=
  List.filter_eq_self.mpr fun x hx => by simpa [bne_iff_ne] using h x hx

/-- Witness for C9 at a concrete store and a selected item with a fresh
url. -/
theorem removeItem_noop_when_url_absent_witness :
    removeItem [⟨"h1", "http://a.com", "work", "A"⟩]
        ⟨"h2", "http://b.com", "fun", "B"⟩ =
      [⟨"h1", "http://a.com", "work", "A"⟩] :=
  removeItem_noop_when_url_absent _ _ (by decide)

/-- C8: when two stored items carry the same url under different
collections (a state only reachable past the duplicate check),
`removeItem` applied to either of them deletes both, because the filter
compares urls only and ignores the hash and collection fields. -/
theorem removeItem_same_url_deletes_both (s : List Item) (a b : Item)
    (ha : a ∈ s) (hb : b ∈ s) (hurl : a.url = b.url)
    (hcol : a.collection ≠ b.collection) :
    (a ∉ removeItem s a ∧ b ∉ removeItem s a) ∧
      (a ∉ removeItem s b ∧ b ∉ removeItem s b) := by
  refine ⟨⟨fun hmem => ?_, fun hmem => ?_⟩, ⟨fun hmem => ?_, fun hmem => ?_⟩⟩ <;>
    · have := (List.mem_filter.mp hmem).2
      simp [bne_iff_ne, hurl] at this

/-- Witness for C8 at a concrete store holding the same url twice under
two collections. -/
theorem removeItem_same_url_deletes_both_witness :
    (⟨"h1", "http://a.com", "work", "A"⟩ : Item) ∉
        removeItem
          [⟨"h1", "http://a.com", "work", "A"⟩,
           ⟨"h2", "http://a.com", "fun", "B"⟩]
          ⟨"h1", "http://a.com", "work", "A"⟩ ∧
      (⟨"h2", "http://a.com", "fun", "B"⟩ : Item) ∉
        removeItem
          [⟨"h1", "http://a.com", "work", "A"⟩,
           ⟨"h2", "http://a.com", "fun", "B"⟩]
          ⟨"h1", "http://a.com", "work", "A"⟩ :=
  (removeItem_same_url_deletes_both
    [⟨"h1", "http://a.com", "work", "A"⟩, ⟨"h2", "http://a.com", "fun", "B"⟩]
    ⟨"h1", "http://a.com", "work", "A"⟩ ⟨"h2", "http://a.com", "fun", "B"⟩
    (by decide) (by decide) rfl (by decide)).1

/-- C3: two URL strings that normalize identically hash identically —
`hashUrl` is the digest of the normalized form, so it factors through
`normalizeUrl`. -/
theorem hashUrl_respects_normalization (a b : String)
    (h : normalizeUrl a = normalizeUrl b) : hashUrl a = hashUrl b := by
  unfold hashUrl
  rw [h]

/-- Witness for C3: two spellings of the same address that normalize to
the same string. -/
theorem hashUrl_respects_normalization_witness :
    hashUrl "HTTP://Example.com/" = hashUrl "http://example.com" :=
  hashUrl_respects_normalization _ _ (by rfl)

/-- C4: when the 5-second timeout settles the race, `fetchItemMeta`
resolves to the bare url record with no title; when the GET settles
first, the response body is handed to the title scraper and the call
succeeds whatever the HTTP status — `got` runs with `throwHttpErrors`
disabled, so no status raises. -/
theorem fetchItemMeta_timeout_and_status (url : String)
    (scraper : String → String → Option String) :
    fetchItemMeta url .timedOut scraper = .ok ⟨url, none⟩ ∧
      ∀ resp : HttpResponse,
        fetchItemMeta url (.response resp) scraper =
          .ok ⟨url, scraper resp.body url⟩ := by
  refine ⟨rfl, fun resp => ?_⟩
  simp [fetchItemMeta, got]

/-- C2: adding a url whose normalized hash equals the hash of a stored
item makes `addCommand` report the duplicate error naming that stored
item's collection and return with the persisted list exactly as it was. -/
theorem addCommand_rejects_duplicate (s : List Item)
    (url collection title : String) (it : Item)
    (hvalid : isUri url = true) (hmem : it ∈ s)
    (hhash : hashUrl url = some it.hash) :
    ∃ ex : Item, ex ∈ s ∧ hashUrl url = some ex.hash ∧
      addCommand s url collection title =
        (s, .reported ("The provided url has already been added to " ++
          ex.collection)) := by
  have hfind : (s.find? fun x => x.hash == it.hash).isSome := by
    rw [List.find?_isSome]
    exact ⟨it, hmem, by simp⟩
  obtain ⟨ex, hex⟩ := Option.isSome_iff_exists.mp hfind
  have hgi : getItem s url = some ex := by
    unfold getItem
    rw [hhash]
    exact hex
  refine ⟨ex, List.mem_of_find?_eq_some hex, ?_, ?_⟩
  · rw [hhash]
    have := List.find?_some hex
    simp only [beq_iff_eq] at this
    rw [this]
  · unfold addCommand
    rw [hvalid, hgi]
    simp

/-- Witness for C2: a one-item store whose item hashes the offered url;
the command reports the item's collection and leaves the store as it
was. -/
theorem addCommand_rejects_duplicate_witness :
    addCommand [⟨md5hex "http://a.com", "http://a.com", "reading", "T"⟩]
        "http://a.com" "c" "t" =
      ([⟨md5hex "http://a.com", "http://a.com", "reading", "T"⟩],
        AddOutcome.reported
          "The provided url has already been added to reading") := by
  obtain ⟨ex, hmem, hh, hres⟩ :=
    addCommand_rejects_duplicate
      [⟨md5hex "http://a.com", "http://a.com", "reading", "T"⟩]
      "http://a.com" "c" "t"
      ⟨md5hex "http://a.com", "http://a.com", "reading", "T"⟩
      rfl (List.mem_singleton_self _) rfl
  have hx : ex = ⟨md5hex "http://a.com", "http://a.com", "reading", "T"⟩ :=
    List.mem_singleton.mp hmem
  rw [hx] at hres
  exact hres

instance : IsTotal FuzzyResult fuzzyRank :=
  ⟨fun a b => by
    unfold fuzzyRank
    rcases lt_trichotomy a.score b.score with h | h | h
    · exact Or.inr (Or.inl h)
    · rcases Nat.le_total a.index b.index with hi | hi
      · exact Or.inl (Or.inr ⟨h.symm, hi⟩)
      · exact Or.inr (Or.inr ⟨h, hi⟩)
    · exact Or.inl (Or.inl h)⟩

instance : IsTrans FuzzyResult fuzzyRank :=
  ⟨fun a b c hab hbc => by
    unfold fuzzyRank at *
    rcases hab with h1 | ⟨h1, i1⟩
    · rcases hbc with h2 | ⟨h2, i2⟩
      · exact Or.inl (h2.trans h1)
      · exact Or.inl (lt_of_eq_of_lt h2 h1)
    · rcases hbc with h2 | ⟨h2, i2⟩
      · exact Or.inl (lt_of_lt_of_eq h2 h1)
      · exact Or.inr ⟨h2.trans h1, i1.trans i2⟩⟩

/-- The strings of the fuzzy-filter candidates are exactly the array
elements whose fuzzy match succeeds, in array order. -/
theorem fuzzy_candidates_strings (input : String) :
    ∀ (n : Nat) (arr : List String),
      (((List.enumFrom n arr).filterMap fun p =>
          (fuzzyMatch input p.2).map fun sc => FuzzyResult.mk p.2 sc p.1).map
        FuzzyResult.string) =
        arr.filter fun c => (fuzzyMatch input c).isSome
  | _, [] => rfl
  | n, x :: xs => by
    simp only [List.enumFrom, List.filterMap_cons, List.filter_cons]
    cases hm : fuzzyMatch input x with
    | none => simpa [hm] using fuzzy_candidates_strings input (n + 1) xs
    | some sc => simpa [hm] using fuzzy_candidates_strings input (n + 1) xs

/-- C6: the empty input returns every distinct collection label with no
filtering; a non-empty input returns exactly the fuzzy-matched collection
labels, in the order fixed by the comparator's ranking (a sorted
permutation of the matching labels); on a store whose collections are
work and fun, the input zzz returns the empty list. -/
theorem fuzzySearchCollections_spec :
    (∀ s : List Item, fuzzySearchCollections s "" = getCollections s) ∧
      (∀ (s : List Item) (input : String), input ≠ "" →
        fuzzySearchCollections s input =
            (fuzzyFilter input (getCollections s)).map FuzzyResult.string ∧
          List.Sorted fuzzyRank (fuzzyFilter input (getCollections s)) ∧
          List.Perm (fuzzySearchCollections s input)
            ((getCollections s).filter fun c => (fuzzyMatch input c).isSome)) ∧
      fuzzySearchCollections
        [⟨"h1", "u1", "work", "t1"⟩, ⟨"h2", "u2", "fun", "t2"⟩] "zzz" = [] := by
  refine ⟨fun s => by simp [fuzzySearchCollections], fun s input hne => ?_,
    by decide⟩
  have h1 : fuzzySearchCollections s input =
      (fuzzyFilter input (getCollections s)).map FuzzyResult.string := by
    simp [fuzzySearchCollections, hne]
  refine ⟨h1, List.sorted_insertionSort _ _, ?_⟩
  rw [h1]
  have h2 := (List.perm_insertionSort fuzzyRank
    ((getCollections s).enum.filterMap fun p =>
      (fuzzyMatch input p.2).map fun sc => FuzzyResult.mk p.2 sc p.1)).map
    FuzzyResult.string
  refine h2.trans ?_
  rw [show ((getCollections s).enum = List.enumFrom 0 (getCollections s)) from rfl,
    fuzzy_candidates_strings input 0 (getCollections s)]

/-- Witness for C6 at a concrete store and the non-empty input w. -/
theorem fuzzySearchCollections_spec_witness :
    fuzzySearchCollections
          [⟨"h1", "u1", "work", "t1"⟩, ⟨"h2", "u2", "fun", "t2"⟩] "w" =
        (fuzzyFilter "w"
          (getCollections
            [⟨"h1", "u1", "work", "t1"⟩, ⟨"h2", "u2", "fun", "t2"⟩])).map
          FuzzyResult.string ∧
      List.Sorted fuzzyRank
        (fuzzyFilter "w"
          (getCollections
            [⟨"h1", "u1", "work", "t1"⟩, ⟨"h2", "u2", "fun", "t2"⟩])) ∧
      List.Perm
        (fuzzySearchCollections
          [⟨"h1", "u1", "work", "t1"⟩, ⟨"h2", "u2", "fun", "t2"⟩] "w")
        ((getCollections
            [⟨"h1", "u1", "work", "t1"⟩, ⟨"h2", "u2", "fun", "t2"⟩]).filter
          fun c => (fuzzyMatch "w" c).isSome) :=
  fuzzySearchCollections_spec.2.1
    [⟨"h1", "u1", "work", "t1"⟩, ⟨"h2", "u2", "fun", "t2"⟩] "w" (by decide)

/-! ### Association-list lemmas for the listCommand object -/

theorem alookup_setKey_self {β : Type} (k : String) (v : β)
    (l : List (String × β)) : alookup (setKey k v l) k = some v := by
  induction l with
  | nil => simp [setKey, alookup]
  | cons e rest ih =>
    by_cases he : e.1 = k
    · simp [setKey, he, alookup]
    · simp [setKey, he, alookup, ih]

theorem alookup_setKey_ne {β : Type} {k c : String} (hne : c ≠ k) (v : β)
    (l : List (String × β)) : alookup (setKey k v l) c = alookup l c := by
  induction l with
  | nil => simp [setKey, alookup, Ne.symm hne]
  | cons e rest ih =>
    by_cases he : e.1 = k
    · have h1 : e.1 ≠ c := by rw [he]; exact Ne.symm hne
      simp [setKey, he, alookup, Ne.symm hne, h1]
    · by_cases h2 : e.1 = c
      · simp [setKey, he, alookup, h2, hne]
      · simp [setKey, he, alookup, h2, ih]

theorem alookup_mem {β : Type} {l : List (String × β)} {t : String} {v : β}
    (h : alookup l t = some v) : (t, v) ∈ l := by
  induction l with
  | nil => simp [alookup] at h
  | cons e rest ih =>
    by_cases he : e.1 = t
    · rw [alookup, if_pos he] at h
      have hv : e.2 = v := Option.some_inj.mp h
      exact List.mem_cons.mpr (Or.inl (by rw [← he, ← hv]))
    · rw [alookup, if_neg he] at h
      exact List.mem_cons_of_mem _ (ih h)

theorem alookup_filter_ne {β : Type} {t t2 : String} (hne : t2 ≠ t)
    (l : List (String × β)) :
    alookup (l.filter fun e => e.1 != t) t2 = alookup l t2 := by
  induction l with
  | nil => rfl
  | cons e rest ih =>
    by_cases he : e.1 = t
    · have h1 : e.1 ≠ t2 := by rw [he]; exact Ne.symm hne
      simp [List.filter_cons, he, alookup, h1, ih, Ne.symm hne]
    · by_cases h2 : e.1 = t2
      · simp [List.filter_cons, he, alookup, h2, hne]
      · simp [List.filter_cons, he, alookup, h2, ih]

theorem some_getD_eq_or {α : Type} (x : Option α) (d : α) :
    some (x.getD d) = x.or (some d) := by cases x <;> rfl

/-- What one loop iteration of listCommand contributes to the lookup of
`(c, t)`: an already-present binding wins; otherwise the item itself when
it renders to that collection and title. -/
theorem entryStep_lookup (acc : List (String × List (String × String)))
    (it : Item) (c t : String) :
    ((alookup (entryStep acc it) c).bind fun es => alookup es t) =
      (((alookup acc c).bind fun es => alookup es t).or
        (if it.collection = c ∧ renderTitle it = t then some (renderLink it)
          else none)) := by
  by_cases hc : it.collection = c
  · subst hc
    unfold entryStep
    rw [alookup_setKey_self, Option.some_bind]
    by_cases ht : renderTitle it = t
    · subst ht
      rw [if_pos ⟨rfl, rfl⟩]
      cases hacc : alookup acc it.collection with
      | none => simp [hacc, assignEntry, alookup]
      | some es => simp [hacc, assignEntry, alookup, some_getD_eq_or]
    · rw [if_neg fun h => ht h.2, Option.or_none]
      cases hacc : alookup acc it.collection with
      | none => simp [hacc, assignEntry, alookup, ht]
      | some es =>
        simp [hacc, assignEntry, alookup, ht,
          alookup_filter_ne (Ne.symm ht) es]
  · unfold entryStep
    rw [alookup_setKey_ne (Ne.symm hc), if_neg fun h => hc h.1, Option.or_none]

/-- The lookup of `(c, t)` after folding listCommand's loop over `items`,
starting from any accumulator: the accumulator's binding if present, else
the hyperlink of the first item rendering to `(c, t)`. -/
theorem foldl_entryStep_lookup (items : List Item) (c t : String) :
    ∀ acc : List (String × List (String × String)),
      ((alookup (items.foldl entryStep acc) c).bind fun es => alookup es t) =
        (((alookup acc c).bind fun es => alookup es t).or
          ((items.find? fun it =>
              it.collection == c && renderTitle it == t).map renderLink)) := by
  induction items with
  | nil => intro acc; simp
  | cons it rest ih =>
    intro acc
    rw [List.foldl_cons, ih (entryStep acc it), entryStep_lookup,
      Option.or_assoc]
    congr 1
    by_cases h : it.collection = c ∧ renderTitle it = t
    · rw [if_pos h, List.find?_cons_of_pos _ (by simp [h.1, h.2])]
      rfl
    · rw [if_neg h, List.find?_cons_of_neg _ (by simpa using fun h1 h2 => h ⟨h1, h2⟩),
        Option.none_or]

/-- The tree listCommand prints shows, under collection `c` and rendered
title `t`, exactly the hyperlink of the first stored item rendering to
that collection and title. -/
theorem treeLookup_eq_firstMatch (items : List Item) (c t : String) :
    treeLookup items c t =
      (items.find? fun it => it.collection == c && renderTitle it == t).map
        renderLink := by
  have h := foldl_entryStep_lookup items c t []
  simpa [treeLookup, listTree, alookup] using h

theorem alookup_setKey_cases {β : Type} {k c : String} {v : β}
    {l : List (String × β)} {es : β}
    (h : alookup (setKey k v l) c = some es) :
    (c = k ∧ es = v) ∨ alookup l c = some es := by
  by_cases hc : c = k
  · subst hc
    rw [alookup_setKey_self] at h
    exact Or.inl ⟨rfl, (Option.some_inj.mp h).symm⟩
  · rw [alookup_setKey_ne hc] at h
    exact Or.inr h

theorem assignEntry_keys_nodup {t l : String} {ex : List (String × String)}
    (h : (ex.map Prod.fst).Nodup) :
    ((assignEntry t l ex).map Prod.fst).Nodup := by
  unfold assignEntry
  simp only [List.map_cons]
  refine List.nodup_cons.mpr ⟨?_, ?_⟩
  · intro hmem
    obtain ⟨e, he, hfst⟩ := List.mem_map.mp hmem
    have hp := List.of_mem_filter he
    rw [hfst] at hp
    simp at hp
  · exact h.sublist ((ex.filter_sublist).map Prod.fst)

/-- Every entry list in the object listCommand builds has pairwise
distinct title keys (it is a JS object). -/
theorem listTree_keys_nodup (items : List Item) :
    ∀ acc, (∀ c es, alookup acc c = some es → (es.map Prod.fst).Nodup) →
      ∀ c es, alookup (items.foldl entryStep acc) c = some es →
        (es.map Prod.fst).Nodup := by
  induction items with
  | nil => exact fun acc hacc c es h => hacc c es h
  | cons it rest ih =>
    intro acc hacc c es h
    rw [List.foldl_cons] at h
    refine ih (entryStep acc it) ?_ c es h
    intro c2 es2 h2
    unfold entryStep at h2
    rcases alookup_setKey_cases h2 with ⟨_, hes⟩ | h3
    · subst hes
      apply assignEntry_keys_nodup
      cases hacc2 : alookup acc it.collection with
      | none => simp [hacc2]
      | some es3 => simpa [hacc2] using hacc _ _ hacc2
    · exact hacc _ _ h3

theorem entries_nodup_of_listTree {items : List Item} {c : String}
    {es : List (String × String)}
    (h : alookup (listTree items) c = some es) : (es.map Prod.fst).Nodup :=
  listTree_keys_nodup items [] (by intro c2 es2 h2; simp [alookup] at h2) c es h

theorem alookup_eq_of_mem_of_nodup {β : Type} {es : List (String × β)}
    {t : String} {v : β} (hnd : (es.map Prod.fst).Nodup)
    (hmem : (t, v) ∈ es) : alookup es t = some v := by
  induction es with
  | nil => simp at hmem
  | cons e rest ih =>
    rw [List.map_cons, List.nodup_cons] at hnd
    rcases List.mem_cons.mp hmem with he | hm
    · rw [← he, alookup, if_pos rfl]
    · have h1 : e.1 ≠ t := fun hh =>
        hnd.1 (hh ▸ List.mem_map.mpr ⟨(t, v), hm, rfl⟩)
      rw [alookup, if_neg h1]
      exact ih hnd.2 hm

theorem countP_eq_one_of_alookup {es : List (String × String)} {t v : String}
    (hnd : (es.map Prod.fst).Nodup) (hl : alookup es t = some v) :
    es.countP (fun e => e.1 == t) = 1 := by
  have hmem : t ∈ es.map Prod.fst :=
    List.mem_map.mpr ⟨(t, v), alookup_mem hl, rfl⟩
  have hcount := List.count_eq_one_of_mem hnd hmem
  rw [List.count, List.countP_map] at hcount
  exact hcount

/-- C7: the list command groups every stored item under the label of its
own collection and under no other: each item's rendered title has an
entry under the item's collection, and every (collection, title) pair
shown in the tree comes from a stored item of that very collection. -/
theorem listCommand_groups_by_collection (items : List Item) :
    (∀ it ∈ items,
        (treeLookup items it.collection (renderTitle it)).isSome = true) ∧
      ∀ c t, (treeLookup items c t).isSome = true →
        ∃ it ∈ items, it.collection = c ∧ renderTitle it = t := by
  constructor
  · intro it hit
    rw [treeLookup_eq_firstMatch, Option.isSome_map', List.find?_isSome]
    exact ⟨it, hit, by simp⟩
  · intro c t h
    rw [treeLookup_eq_firstMatch, Option.isSome_map', List.find?_isSome] at h
    obtain ⟨x, hx, hp⟩ := h
    simp only [Bool.and_eq_true, beq_iff_eq] at hp
    exact ⟨x, hx, hp.1, hp.2⟩

/-- Witness for C7 at a concrete two-collection store. -/
theorem listCommand_groups_by_collection_witness :
    (treeLookup
        [⟨"h1", "http://work.com/a", "work", "Work title"⟩,
         ⟨"h2", "http://fun.com/b", "fun", "Fun title"⟩]
        (Item.collection ⟨"h1", "http://work.com/a", "work", "Work title"⟩)
        (renderTitle ⟨"h1", "http://work.com/a", "work", "Work title"⟩)).isSome =
      true :=
  (listCommand_groups_by_collection
    [⟨"h1", "http://work.com/a", "work", "Work title"⟩,
     ⟨"h2", "http://fun.com/b", "fun", "Fun title"⟩]).1
    ⟨"h1", "http://work.com/a", "work", "Work title"⟩ (by decide)

/-- C10: when two stored items share a collection and render to the same
truncated title, the printed tree holds exactly one entry under that
title for that collection; its hyperlink is the earlier item's, and the
later item's hyperlink is silently absent (when it differs). -/
theorem listCommand_collapses_duplicate_titles (pre mid post : List Item)
    (a b : Item) (hcol : b.collection = a.collection)
    (htitle : renderTitle b = renderTitle a)
    (hpre : ∀ x ∈ pre,
      ¬(x.collection = a.collection ∧ renderTitle x = renderTitle a)) :
    treeLookup (pre ++ a :: (mid ++ b :: post)) a.collection
        (renderTitle a) = some (renderLink a) ∧
      ((alookup (listTree (pre ++ a :: (mid ++ b :: post)))
            a.collection).getD []).countP
          (fun e => e.1 == renderTitle a) = 1 ∧
      (renderLink b ≠ renderLink a →
        (renderTitle b, renderLink b) ∉
          (alookup (listTree (pre ++ a :: (mid ++ b :: post)))
            a.collection).getD []) := by
  have hfind : ((pre ++ a :: (mid ++ b :: post)).find? fun it =>
      it.collection == a.collection && renderTitle it == renderTitle a) =
      some a := by
    rw [List.find?_append,
      List.find?_eq_none.mpr fun x hx => by simpa using hpre x hx,
      Option.none_or, List.find?_cons_of_pos _ (by simp)]
  have h1 : treeLookup (pre ++ a :: (mid ++ b :: post)) a.collection
      (renderTitle a) = some (renderLink a) := by
    rw [treeLookup_eq_firstMatch, hfind, Option.map_some']
  have hes : ∃ es, alookup (listTree (pre ++ a :: (mid ++ b :: post)))
      a.collection = some es ∧ alookup es (renderTitle a) =
        some (renderLink a) := by
    have h2 := h1
    unfold treeLookup at h2
    cases hacc : alookup (listTree (pre ++ a :: (mid ++ b :: post)))
        a.collection with
    | none => rw [hacc] at h2; simp at h2
    | some es => rw [hacc] at h2; exact ⟨es, rfl, h2⟩
  obtain ⟨es, hes1, hes2⟩ := hes
  have hnd := entries_nodup_of_listTree hes1
  refine ⟨h1, ?_, ?_⟩
  · rw [hes1]
    exact countP_eq_one_of_alookup hnd hes2
  · intro hne hmem
    rw [hes1] at hmem
    have hb2 := alookup_eq_of_mem_of_nodup hnd (htitle ▸ hmem)
    rw [hes2] at hb2
    exact hne (Option.some_inj.mp hb2).symm

/-- Witness for C10: two items with the same collection and title but
different urls; only the first one's hyperlink is shown. -/
theorem listCommand_collapses_duplicate_titles_witness :
    treeLookup
        [⟨"ha", "http://a.com/1", "work", "Same"⟩,
         ⟨"hb", "http://b.com/2", "work", "Same"⟩]
        (Item.collection ⟨"ha", "http://a.com/1", "work", "Same"⟩)
        (renderTitle ⟨"ha", "http://a.com/1", "work", "Same"⟩) =
        some (renderLink ⟨"ha", "http://a.com/1", "work", "Same"⟩) ∧
      ((alookup
          (listTree
            [⟨"ha", "http://a.com/1", "work", "Same"⟩,
             ⟨"hb", "http://b.com/2", "work", "Same"⟩])
          (Item.collection ⟨"ha", "http://a.com/1", "work", "Same"⟩)).getD
          []).countP
        (fun e =>
          e.1 == renderTitle ⟨"ha", "http://a.com/1", "work", "Same"⟩) = 1 ∧
      (renderTitle ⟨"hb", "http://b.com/2", "work", "Same"⟩,
          renderLink ⟨"hb", "http://b.com/2", "work", "Same"⟩) ∉
        (alookup
          (listTree
            [⟨"ha", "http://a.com/1", "work", "Same"⟩,
             ⟨"hb", "http://b.com/2", "work", "Same"⟩])
          (Item.collection ⟨"ha", "http://a.com/1", "work", "Same"⟩)).getD
          [] := by
  obtain ⟨h1, h2, h3⟩ :=
    listCommand_collapses_duplicate_titles [] [] []
      ⟨"ha", "http://a.com/1", "work", "Same"⟩
      ⟨"hb", "http://b.com/2", "work", "Same"⟩
      rfl rfl (by simp)
  exact ⟨h1, h2, h3 (by decide)⟩

/-! ### Parser lemmas for the trailing-slash scenario -/

theorem breakColon_append (m : List Char) :
    ∀ {l a b : List Char}, breakColon l = some (a, b) →
      breakColon (l ++ m) = some (a, b ++ m)
  | [], a, b, h =>
    Option.noConfusion
      (show (none : Option (List Char × List Char)) = some (a, b) from h)
  | c :: cs, a, b, h => by
    by_cases hc : c = ':'
    · subst hc
      have h2 : some (([] : List Char), cs) = some (a, b) := h
      rw [Option.some_inj, Prod.mk.injEq] at h2
      obtain ⟨h3, h4⟩ := h2
      show breakColon (':' :: (cs ++ m)) = some (a, b ++ m)
      exact show some (([] : List Char), cs ++ m) = some (a, b ++ m) by
        rw [← h3, ← h4]
    · simp only [breakColon] at h
      rw [if_neg hc] at h
      cases hcs : breakColon cs with
      | none =>
        rw [hcs] at h
        exact Option.noConfusion
          (show (none : Option (List Char × List Char)) = some (a, b) from h)
      | some q =>
        obtain ⟨a2, b2⟩ := q
        rw [hcs] at h
        have h2 : some (c :: a2, b2) = some (a, b) := h
        rw [Option.some_inj, Prod.mk.injEq] at h2
        obtain ⟨h3, h4⟩ := h2
        have hrec := breakColon_append m hcs
        show breakColon (c :: (cs ++ m)) = some (a, b ++ m)
        simp only [breakColon]
        rw [if_neg hc, hrec]
        exact show some (c :: a2, b2 ++ m) = some (a, b ++ m) by
          rw [← h3, ← h4]

theorem breakColon_eq :
    ∀ {l a b : List Char}, breakColon l = some (a, b) → l = a ++ ':' :: b
  | [], a, b, h =>
    Option.noConfusion
      (show (none : Option (List Char × List Char)) = some (a, b) from h)
  | c :: cs, a, b, h => by
    by_cases hc : c = ':'
    · subst hc
      have h2 : some (([] : List Char), cs) = some (a, b) := h
      rw [Option.some_inj, Prod.mk.injEq] at h2
      obtain ⟨h3, h4⟩ := h2
      rw [← h3, ← h4]
      rfl
    · simp only [breakColon] at h
      rw [if_neg hc] at h
      cases hcs : breakColon cs with
      | none =>
        rw [hcs] at h
        exact Option.noConfusion
          (show (none : Option (List Char × List Char)) = some (a, b) from h)
      | some q =>
        obtain ⟨a2, b2⟩ := q
        rw [hcs] at h
        have h2 : some (c :: a2, b2) = some (a, b) := h
        rw [Option.some_inj, Prod.mk.injEq] at h2
        obtain ⟨h3, h4⟩ := h2
        rw [← h3, ← h4, List.cons_append]
        exact congrArg (c :: ·) (breakColon_eq hcs)

theorem breakSlash_eq : ∀ l : List Char, (breakSlash l).1 ++ (breakSlash l).2 = l
  | [] => rfl
  | c :: cs => by
    by_cases hc : c = '/'
    · subst hc
      rfl
    · simp only [breakSlash]
      rw [if_neg hc]
      show (c :: (breakSlash cs).1) ++ (breakSlash cs).2 = c :: cs
      rw [List.cons_append, breakSlash_eq cs]

theorem breakSlash_append_no (m : List Char) :
    ∀ {l a : List Char}, breakSlash l = (a, []) →
      breakSlash (l ++ m) = (a ++ (breakSlash m).1, (breakSlash m).2)
  | [], a, h => by
    have h2 : (([], []) : List Char × List Char) = (a, []) := h
    rw [Prod.mk.injEq] at h2
    obtain ⟨h3, _⟩ := h2
    show breakSlash m = (a ++ (breakSlash m).1, (breakSlash m).2)
    rw [← h3]
    show breakSlash m = ((breakSlash m).1, (breakSlash m).2)
    rfl
  | c :: cs, a, h => by
    by_cases hc : c = '/'
    · subst hc
      have h2 : (([], '/' :: cs) : List Char × List Char) = (a, []) := h
      rw [Prod.mk.injEq] at h2
      exact absurd h2.2 (by simp)
    · simp only [breakSlash] at h
      rw [if_neg hc, Prod.mk.injEq] at h
      obtain ⟨h3, h4⟩ := h
      have h5 : breakSlash cs = ((breakSlash cs).1, []) :=
        Prod.ext_iff.mpr ⟨rfl, h4⟩
      have hrec := breakSlash_append_no m h5
      show breakSlash (c :: (cs ++ m)) = (a ++ (breakSlash m).1, (breakSlash m).2)
      simp only [breakSlash]
      rw [if_neg hc, hrec, ← h3]
      rfl

theorem breakSlash_append_yes (m : List Char) :
    ∀ {l a b : List Char}, breakSlash l = (a, b) → b ≠ [] →
      breakSlash (l ++ m) = (a, b ++ m)
  | [], a, b, h, hb => by
    have h2 : (([], []) : List Char × List Char) = (a, b) := h
    rw [Prod.mk.injEq] at h2
    exact absurd h2.2.symm hb
  | c :: cs, a, b, h, hb => by
    by_cases hc : c = '/'
    · subst hc
      have h2 : (([], '/' :: cs) : List Char × List Char) = (a, b) := h
      rw [Prod.mk.injEq] at h2
      obtain ⟨h3, h4⟩ := h2
      show breakSlash ('/' :: (cs ++ m)) = (a, b ++ m)
      rw [← h3, ← h4]
      rfl
    · simp only [breakSlash] at h
      rw [if_neg hc, Prod.mk.injEq] at h
      obtain ⟨h3, h4⟩ := h
      have h5 : breakSlash cs = ((breakSlash cs).1, b) :=
        Prod.ext_iff.mpr ⟨rfl, h4⟩
      have hrec := breakSlash_append_yes m h5 hb
      show breakSlash (c :: (cs ++ m)) = (a, b ++ m)
      simp only [breakSlash]
      rw [if_neg hc, hrec, ← h3]

/-- Computation rule: a URL whose colon split exposes `//` parses into its
pieces. -/
theorem parseChars_of_parts {l proto rest2 : List Char}
    (hbc : breakColon l = some (proto, '/' :: '/' :: rest2)) :
    parseChars l = some ⟨proto, (breakSlash rest2).1, (breakSlash rest2).2⟩ := by
  unfold parseChars
  rw [hbc]
  rfl

/-- Inversion: a successful parse exposes the colon split and the slash
split. -/
theorem parseChars_inv {l : List Char} {p : UrlParts}
    (h : parseChars l = some p) :
    ∃ rest2, breakColon l = some (p.protocol, '/' :: '/' :: rest2) ∧
      breakSlash rest2 = (p.host, p.path) := by
  unfold parseChars at h
  cases hbc : breakColon l with
  | none =>
    rw [hbc] at h
    exact Option.noConfusion (show (none : Option UrlParts) = some p from h)
  | some q =>
    obtain ⟨proto, rest⟩ := q
    rw [hbc] at h
    cases rest with
    | nil =>
      exact Option.noConfusion (show (none : Option UrlParts) = some p from h)
    | cons r1 rest1 =>
      cases rest1 with
      | nil =>
        exact Option.noConfusion (show (none : Option UrlParts) = some p from h)
      | cons r2 rest2 =>
        by_cases hr : r1 = '/' ∧ r2 = '/'
        · obtain ⟨rfl, rfl⟩ := hr
          have h2 : some
              (⟨proto, (breakSlash rest2).1, (breakSlash rest2).2⟩ : UrlParts) =
              some p := h
          have hpp := Option.some_inj.mp h2
          subst hpp
          exact ⟨rest2, rfl, rfl⟩
        · have h2 : (if r1 = '/' ∧ r2 = '/' then
              some (⟨proto, (breakSlash rest2).1, (breakSlash rest2).2⟩ : UrlParts)
            else none) = some p := h
          rw [if_neg hr] at h2
          exact Option.noConfusion h2

/-- A parsed URL decomposes into protocol, the `://` separator, host and
path. -/
theorem parseChars_shape {l : List Char} {p : UrlParts}
    (h : parseChars l = some p) :
    l = (p.protocol ++ ':' :: '/' :: '/' :: p.host) ++ p.path := by
  obtain ⟨rest2, hbc, hbs⟩ := parseChars_inv h
  have h1 := breakColon_eq hbc
  have h2 : p.host ++ p.path = rest2 := by
    rw [← breakSlash_eq rest2, hbs]
  rw [h1, ← h2]
  simp [List.append_assoc]

/-- Appending a `/` to a parseable URL keeps the protocol and host and
appends the `/` to the path (a bare host gains the path `/`). -/
theorem parseChars_append_slash {l : List Char} {p : UrlParts}
    (h : parseChars l = some p) :
    parseChars (l ++ ['/']) = some ⟨p.protocol, p.host,
      if p.path = [] then ['/'] else p.path ++ ['/']⟩ := by
  obtain ⟨rest2, hbc, hbs⟩ := parseChars_inv h
  have hbc2 : breakColon (l ++ ['/']) =
      some (p.protocol, '/' :: '/' :: (rest2 ++ ['/'])) := by
    have hb := breakColon_append ['/'] hbc
    simpa using hb
  rw [parseChars_of_parts hbc2]
  by_cases hpath : p.path = []
  · have h5 : breakSlash rest2 = (p.host, []) := by rw [hbs, hpath]
    have h6 := breakSlash_append_no ['/'] h5
    have h7 : breakSlash (rest2 ++ ['/']) = (p.host, ['/']) := by
      rw [h6]
      simp [breakSlash]
    rw [h7, if_pos hpath]
  · have h6 := breakSlash_append_yes ['/'] hbs hpath
    rw [h6, if_neg hpath]

theorem parse_of_isUri {u : String} (h : isUri u = true) :
    ∃ p, parseChars u.data = some p := by
  unfold isUri at h
  cases hp : parseChars u.data with
  | none => rw [hp] at h; cases h
  | some p => exact ⟨p, rfl⟩

/-- Computation rule for `normalizeUrl` on a parseable URL. -/
theorem normalizeUrl_parts {u : String} {p : UrlParts}
    (hp : parseChars u.data = some p) :
    normalizeUrl u = some (String.mk
      (p.protocol.map Char.toLower ++ ':' :: '/' :: '/' ::
        stripDefaultPort (p.protocol.map Char.toLower)
          (stripWww (p.host.map Char.toLower)) ++
        removeTrailingSlash p.path)) := by
  unfold normalizeUrl
  rw [hp]

/-- Appending a trailing slash to a slashless parseable URL does not
change its normalization. -/
theorem normalizeUrl_append_slash {u : String} {p : UrlParts}
    (hp : parseChars u.data = some p)
    (hlast : u.data.getLast? ≠ some '/') :
    normalizeUrl (u ++ "/") = normalizeUrl u := by
  have hdata : (u ++ "/").data = u.data ++ ['/'] := by
    rw [String.data_append]
  have hp2 : parseChars ((u ++ "/")).data =
      some ⟨p.protocol, p.host,
        if p.path = [] then ['/'] else p.path ++ ['/']⟩ := by
    rw [hdata]
    exact parseChars_append_slash hp
  have hpath_eq : removeTrailingSlash
      (if p.path = [] then ['/'] else p.path ++ ['/']) =
      removeTrailingSlash p.path := by
    by_cases hpath : p.path = []
    · rw [if_pos hpath, hpath]
      rfl
    · have hl : p.path.getLast? ≠ some '/' := by
        rw [parseChars_shape hp, List.getLast?_append] at hlast
        cases hpl : p.path.getLast? with
        | none => exact absurd (List.getLast?_eq_none_iff.mp hpl) hpath
        | some ch =>
          rw [hpl] at hlast
          simpa using hlast
      rw [if_neg hpath]
      have ha : removeTrailingSlash (p.path ++ ['/']) = p.path := by
        unfold removeTrailingSlash
        rw [List.getLast?_concat, if_pos rfl, List.dropLast_concat]
      have hb : removeTrailingSlash p.path = p.path := by
        unfold removeTrailingSlash
        rw [if_neg hl]
      rw [ha, hb]
  rw [normalizeUrl_parts hp2, normalizeUrl_parts hp]
  exact congrArg (fun path => some (String.mk
    (p.protocol.map Char.toLower ++ ':' :: '/' :: '/' ::
      stripDefaultPort (p.protocol.map Char.toLower)
        (stripWww (p.host.map Char.toLower)) ++ path))) hpath_eq

theorem isUri_append_slash {u : String} {p : UrlParts}
    (hp : parseChars u.data = some p) (hu : isUri u = true) :
    isUri (u ++ "/") = true := by
  have hdata : (u ++ "/").data = u.data ++ ['/'] := by
    rw [String.data_append]
  unfold isUri at hu ⊢
  rw [hp] at hu
  rw [hdata, parseChars_append_slash hp]
  exact hu

theorem hashUrl_append_slash {u : String} {p : UrlParts}
    (hp : parseChars u.data = some p)
    (hlast : u.data.getLast? ≠ some '/') :
    hashUrl (u ++ "/") = hashUrl u := by
  unfold hashUrl
  rw [normalizeUrl_append_slash hp hlast]

/-- C5: starting from any stored state free of u's hash, adding u
succeeds and appends one item; a second add of u with a trailing slash
appended is rejected as a duplicate of the first, naming the collection
the first call stored — the two urls normalize identically, so their
hashes agree with the add-time existence check. -/
theorem addCommand_rejects_trailing_slash_duplicate (s0 : List Item)
    (u c1 t1 c2 t2 : String)
    (hvalid : isUri u = true)
    (hlast : u.data.getLast? ≠ some '/')
    (hnew : getItem s0 u = none) :
    ∃ item : Item,
      addCommand s0 u c1 t1 = (s0 ++ [item], .added item) ∧
        item.collection = c1 ∧
        addCommand (s0 ++ [item]) (u ++ "/") c2 t2 =
          (s0 ++ [item],
            .reported ("The provided url has already been added to " ++ c1)) := by
  obtain ⟨p, hp⟩ := parse_of_isUri hvalid
  obtain ⟨n, hn⟩ : ∃ n, normalizeUrl u = some n := ⟨_, normalizeUrl_parts hp⟩
  have hhash : hashUrl u = some (md5hex n) := by
    unfold hashUrl
    rw [hn]
    rfl
  refine ⟨⟨md5hex n, u, c1, t1⟩, ?_, rfl, ?_⟩
  · simp [addCommand, hvalid, hnew, hhash, addItem]
  · have hh2 : hashUrl (u ++ "/") = some (md5hex n) := by
      rw [hashUrl_append_slash hp hlast, hhash]
    have hv2 : isUri (u ++ "/") = true := isUri_append_slash hp hvalid
    have hfind0 : s0.find? (fun x => x.hash == md5hex n) = none := by
      have h0 := hnew
      unfold getItem at h0
      rw [hhash] at h0
      exact h0
    have hgi2 : getItem (s0 ++ [⟨md5hex n, u, c1, t1⟩]) (u ++ "/") =
        some ⟨md5hex n, u, c1, t1⟩ := by
      unfold getItem
      rw [hh2]
      show (s0 ++ [(⟨md5hex n, u, c1, t1⟩ : Item)]).find?
          (fun x => x.hash == md5hex n) = some ⟨md5hex n, u, c1, t1⟩
      rw [List.find?_append, hfind0, Option.none_or]
      simp
    simp [addCommand, hv2, hgi2]

/-- Witness for C5: an empty store, adding a url, then its slash-suffixed
twin. -/
theorem addCommand_rejects_trailing_slash_duplicate_witness :
    addCommand [⟨md5hex "http://a.com", "http://a.com", "reading", "T"⟩]
        ("http://a.com" ++ "/") "c2" "t2" =
      ([⟨md5hex "http://a.com", "http://a.com", "reading", "T"⟩],
        AddOutcome.reported
          ("The provided url has already been added to " ++ "reading")) := by
  obtain ⟨item, h1, hcol, h2⟩ :=
    addCommand_rejects_trailing_slash_duplicate [] "http://a.com" "reading" "T"
      "c2" "t2" rfl (by decide) rfl
  have h0 : addCommand [] "http://a.com" "reading" "T" =
      ([] ++ [(⟨md5hex "http://a.com", "http://a.com", "reading", "T"⟩ : Item)],
        AddOutcome.added
          ⟨md5hex "http://a.com", "http://a.com", "reading", "T"⟩) := rfl
  have hitem := congrArg Prod.fst (h1.symm.trans h0)
  simp only [List.nil_append] at hitem
  have hitem2 : item =
      (⟨md5hex "http://a.com", "http://a.com", "reading", "T"⟩ : Item) := by
    simpa using hitem
  subst hitem2
  simpa using h2
end Bladwijzers
